import Mathlib

/-!
# Verification of the swapy-identity-api hash-linked tree engine

Shallow embedding of the repository's `IdentityDag` tree engine
(`src/IdentityDag.js`) and of the tree-mutating operations of the
`IpfsService` persistence layer (`src/IpfsService.js`), together with
proofs settling the frozen specification claims.

JavaScript objects `{ label, hash, childrens }` become the inductive type
`Node`; the `hash` and `childrens` fields may be `null`/absent, which is
modelled with `Option`.  The JavaScript code mutates trees in place and
returns either the mutated node or a falsy sentinel; the embedding is
functional: each engine operation returns the new tree (wrapped in
`Option`, or in `RemoveResult` for `removeNode`, whose JS original can
return `false`, `null` or a node).  On every `null`/`false` return path of
the source no mutation has been performed, so the functional reading
"failure leaves the input tree as the current tree" is faithful.
-/

namespace SwapyIdentity

/-- A tree node, translated from the object shape used throughout
`IdentityDag.js`: `{ label, hash, childrens }`.  `hash` holds `null` or a
string (for leaves the persisted data's content address, for internal
nodes the derived digest); `childrens` is either absent (`none`) or an
array of child nodes.  An empty array (`some []`) is distinct from an
absent field, exactly as in JavaScript. -/
inductive Node where
  | mk (label : String) (hash : Option String) (childrens : Option (List Node))

/-- Field accessor for `node.label`. -/
def Node.label : Node → String
  | .mk l _ _ => l

/-- Field accessor for `node.hash`. -/
def Node.hash : Node → Option String
  | .mk _ h _ => h

/-- Field accessor for `node.childrens`. -/
def Node.childrens : Node → Option (List Node)
  | .mk _ _ c => c

/-- Assignment `node.hash = v`. -/
def Node.setHash : Node → Option String → Node
  | .mk l _ c, h => .mk l h c

/-- Assignment `node.childrens = v`. -/
def Node.setChildrens : Node → Option (List Node) → Node
  | .mk l h _, c => .mk l h c

/-- JavaScript truthiness of a string-or-nullish value: `null`,
`undefined` and the empty string are falsy, every other string truthy. -/
def sTruthy : Option String → Bool
  | none => false
  | some s => !s.isEmpty

/-- The guard `node.childrens && node.childrens.length > 0` used all over
`IdentityDag.js`: the field is present and the array is non-empty. -/
def Node.hasChildrens (n : Node) : Bool :=
  match n.childrens with
  | some l => !l.isEmpty
  | none => false

/-- Modelled from the spec: the sha3-256 content-hash digest supplied by
the external `js-sha3` dependency.  Represented symbolically as an
injective tagging function on strings (the spec only relies on it being a
deterministic content hash). -/
def sha3_256 (s : String) : String :=
  "sha3_256(" ++ s ++ ")"

/-- The accumulation loop of `renewNodeHash`: walk the children in order,
and for every child with a truthy `hash`, append that hash to the
accumulator `data` (starting it off at the first truthy hash). -/
def concatChildHashes (l : List Node) : Option String :=
  l.foldl
    (fun data c =>
      if sTruthy c.hash then
        if sTruthy data then some (data.getD "" ++ c.hash.getD "") else c.hash
      else data)
    none

/-- `renewNodeHash` from `IdentityDag.js`: if the node has a non-empty
`childrens` array, concatenate the truthy child hashes in child order and,
when that accumulation is truthy, overwrite `node.hash` with its sha3-256
digest; in every other case the node is returned unchanged. -/
def renewNodeHash (node : Node) : Node :=
  if node.hasChildrens then
    let data := concatChildHashes (node.childrens.getD [])
    if sTruthy data then node.setHash (some (sha3_256 (data.getD "")))
    else node
  else node

/-- `IdentityDag.initTree()`: `{ label: 'root', hash: null }`, no
`childrens` field. -/
def initTree : Node :=
  .mk "root" none none

mutual

/-- `IdentityDag.insertNode(node, parentLabel, label, hash)`: depth-first
search for the first node labelled `parentLabel`; append the new node
`{ label, hash }` to its `childrens` (creating the array when absent or
empty) and renew the hashes on the path back to the call root.  Returns
`none` when no parent matches anywhere (in which case the source performs
no mutation at all). -/
def insertNode : (node : Node) → (parentLabel label : String) → (hash : Option String) →
    Option Node
  | .mk lab hs cs, parentLabel, label, hash =>
    if lab == parentLabel then
      let newNode : Node := .mk label hash none
      let node' : Node :=
        match cs with
        | some l =>
          if l.isEmpty then .mk lab hs (some [newNode])
          else .mk lab hs (some (l ++ [newNode]))
        | none => .mk lab hs (some [newNode])
      some (renewNodeHash node')
    else
      match cs with
      | some l =>
        if l.isEmpty then none
        else
          match insertNodeList l parentLabel label hash with
          | some l' => some (renewNodeHash (.mk lab hs (some l')))
          | none => none
      | none => none

/-- The `for` loop of `insertNode` over the `childrens` array: try each
child in order, replacing the first child on which the recursive insertion
succeeds. -/
def insertNodeList : (l : List Node) → (parentLabel label : String) → (hash : Option String) →
    Option (List Node)
  | [], _, _, _ => none
  | c :: cs, parentLabel, label, hash =>
    match insertNode c parentLabel label hash with
    | some c' => some (c' :: cs)
    | none =>
      match insertNodeList cs parentLabel label hash with
      | some cs' => some (c :: cs')
      | none => none

end

mutual

/-- `IdentityDag.dfs(node, search)`: pre-order depth-first search
returning the first node whose label matches, else `null`. -/
def dfs : (node : Node) → (search : String) → Option Node
  | .mk lab hs cs, search =>
    if lab == search then some (.mk lab hs cs)
    else
      match cs with
      | some l => if l.isEmpty then none else dfsList l search
      | none => none

/-- The `for` loop of `dfs` over the `childrens` array. -/
def dfsList : (l : List Node) → (search : String) → Option Node
  | [], _ => none
  | c :: cs, search =>
    match dfs c search with
    | some r => some r
    | none => dfsList cs search

end

mutual

/-- `IdentityDag.updateNode(node, search, data)`: succeeds on the first
node (in the same traversal order as `dfs`) whose label matches **and**
which has no children (`!node.childrens || node.childrens.length === 0`),
setting its `hash` to `data`; hashes are renewed on the way back to the
call root.  A matching internal node does not stop the traversal: the
search continues into and past it. -/
def updateNode : (node : Node) → (search : String) → (data : String) → Option Node
  | .mk lab hs cs, search, data =>
    if lab == search && (match cs with | some l => l.isEmpty | none => true) then
      some (.mk lab (some data) cs)
    else
      match cs with
      | some l =>
        if l.isEmpty then none
        else
          match updateNodeList l search data with
          | some l' => some (renewNodeHash (.mk lab hs (some l')))
          | none => none
      | none => none

/-- The `for` loop of `updateNode` over the `childrens` array. -/
def updateNodeList : (l : List Node) → (search : String) → (data : String) →
    Option (List Node)
  | [], _, _ => none
  | c :: cs, search, data =>
    match updateNode c search data with
    | some c' => some (c' :: cs)
    | none =>
      match updateNodeList cs search data with
      | some cs' => some (c :: cs')
      | none => none

end

/-- Return value of `IdentityDag.removeNode`, which in the source can be
`false` (removal of `"root"` rejected), a node (success: the node at the
call site, hashes renewed, with the target spliced out of its parent's
`childrens`), or `null` (label not found). -/
inductive RemoveResult where
  | rfalse
  | rnull
  | rnode (n : Node)

mutual

/-- `IdentityDag.removeNode(node, search)`: rejects `search === 'root'`
with `false` before doing anything; returns the node itself when its own
label matches; otherwise scans the `childrens`, and when the recursive
call on child `i` returns a truthy result whose label equals `search`
(i.e. the child itself is the target), splices child `i` out; any truthy
recursive result makes this level return `renewNodeHash(node)`. -/
def removeNode : (node : Node) → (search : String) → RemoveResult
  | .mk lab hs cs, search =>
    if search == "root" then .rfalse
    else if lab == search then .rnode (.mk lab hs cs)
    else
      match cs with
      | some l =>
        if l.isEmpty then .rnull
        else
          match removeNodeList l search with
          | some l' => .rnode (renewNodeHash (.mk lab hs (some l')))
          | none => .rnull
      | none => .rnull

/-- The `for` loop of `removeNode` over the `childrens` array: on the
first child whose recursive removal is truthy, splice that child out when
it is itself the target, otherwise keep its mutated form; earlier children
are kept unchanged. -/
def removeNodeList : (l : List Node) → (search : String) → Option (List Node)
  | [], _ => none
  | c :: cs, search =>
    match removeNode c search with
    | .rnode r =>
      if r.label == search then some cs else some (r :: cs)
    | .rfalse =>
      match removeNodeList cs search with
      | some cs' => some (c :: cs')
      | none => none
    | .rnull =>
      match removeNodeList cs search with
      | some cs' => some (c :: cs')
      | none => none

end

mutual

/-- Decidable equality of nodes, by mutual recursion with node lists. -/
def Node.decEq (a b : Node) : Decidable (a = b) :=
  match a, b with
  | .mk l₁ h₁ c₁, .mk l₂ h₂ c₂ =>
    if hl : l₁ = l₂ then
      if hh : h₁ = h₂ then
        match c₁, c₂ with
        | none, none => isTrue (by rw [hl, hh])
        | none, some _ => isFalse (by intro hcontra; injection hcontra; contradiction)
        | some _, none => isFalse (by intro hcontra; injection hcontra; contradiction)
        | some l₁', some l₂' =>
          match Node.decEqList l₁' l₂' with
          | isTrue hll => isTrue (by rw [hl, hh, hll])
          | isFalse hne =>
            isFalse (by
              intro hcontra
              injection hcontra with _ _ hcc
              injection hcc
              contradiction)
      else isFalse (by intro hcontra; injection hcontra; contradiction)
    else isFalse (by intro hcontra; injection hcontra; contradiction)

/-- Decidable equality of node lists. -/
def Node.decEqList (a b : List Node) : Decidable (a = b) :=
  match a, b with
  | [], [] => isTrue rfl
  | [], _ :: _ => isFalse (by intro hcontra; injection hcontra)
  | _ :: _, [] => isFalse (by intro hcontra; injection hcontra)
  | x :: xs, y :: ys =>
    match Node.decEq x y with
    | isFalse hne => isFalse (by intro hcontra; injection hcontra; contradiction)
    | isTrue hx =>
      match Node.decEqList xs ys with
      | isTrue hxs => isTrue (by rw [hx, hxs])
      | isFalse hne => isFalse (by intro hcontra; injection hcontra; contradiction)

end

instance : DecidableEq Node := Node.decEq

instance : DecidableEq RemoveResult := fun a b =>
  match a, b with
  | .rfalse, .rfalse => isTrue rfl
  | .rnull, .rnull => isTrue rfl
  | .rnode n₁, .rnode n₂ =>
    match decEq n₁ n₂ with
    | isTrue h => isTrue (by rw [h])
    | isFalse h => isFalse (by intro hcontra; injection hcontra; contradiction)
  | .rfalse, .rnull | .rfalse, .rnode _ | .rnull, .rfalse | .rnull, .rnode _
  | .rnode _, .rfalse | .rnode _, .rnull =>
    isFalse (by intro hcontra; injection hcontra)

/-!
## The `IpfsService` persistence layer (`src/IpfsService.js`)

The service composes the tree engine with an external content-addressed
store (IPFS, reached through the external `ipfs-api` dependency) and with
the external `eth-crypto` / `crypto-browserify` primitives.  The external
pieces are modelled from the spec; every piece of control flow of
`IpfsService.js` itself is translated from the source.
-/

/-- An object persisted through `saveObject` (`JSON.stringify` + `ipfs
add`): either a serialized tree or a serialized (encrypted) leaf payload.
-/
inductive IpfsObj where
  | tree (t : Node)
  | str (s : String)
deriving DecidableEq

/-- Modelled from the spec: the state of the external content-addressed
store (ContentStore `put`/`get`, §6), plus the position of the external
random-bytes source.  Addresses are opaque strings; the model issues
`"ipfs/<n>"` for the n-th stored object. -/
structure IpfsState where
  objs : List (String × IpfsObj)
  saltCtr : Nat
deriving DecidableEq

/-- The address the store will assign to the next object saved. -/
def IpfsState.nextAddr (st : IpfsState) : String :=
  "ipfs/" ++ toString st.objs.length

/-- Modelled from the spec: ContentStore `put` for a serialized tree
(`saveObject` in the source: `JSON.stringify` then `ipfs.files.add`,
resolving with the new content address). -/
def saveObjectTree (st : IpfsState) (t : Node) : String × IpfsState :=
  (st.nextAddr, { st with objs := st.objs ++ [(st.nextAddr, .tree t)] })

/-- Modelled from the spec: ContentStore `put` for a serialized leaf
payload. -/
def saveObjectStr (st : IpfsState) (s : String) : String × IpfsState :=
  (st.nextAddr, { st with objs := st.objs ++ [(st.nextAddr, .str s)] })

/-- Modelled from the spec: ContentStore `get` followed by `JSON.parse`
(`getObject` in the source), required here to yield a tree. -/
def getObjectTree (st : IpfsState) (ipfsHash : String) : Option Node :=
  match st.objs.find? (fun p => p.1 == ipfsHash) with
  | some (_, .tree t) => some t
  | _ => none

/-- Modelled from the spec: `String.fromCharCode.apply(null,
crypto.randomBytes(32))` — a fresh 32-byte random salt per draw.  The
random source is a parameter `salts` indexed by draw position. -/
def drawSalt (salts : Nat → String) (st : IpfsState) : String × IpfsState :=
  (salts st.saltCtr, { st with saltCtr := st.saltCtr + 1 })

/-- Modelled from the spec: `JSON.stringify({ data, salt })`, the leaf
envelope wrapping the plaintext with the fresh salt. -/
def jsonDataSalt (data salt : String) : String :=
  "json(data=" ++ data ++ ",salt=" ++ salt ++ ")"

/-- Modelled from the spec: `EthCrypto.encryptWithPublicKey` — an
asymmetric (secp256k1 ECIES) encryption of the payload under the
recipient's public key, represented symbolically. -/
def encryptWithPublicKey (publicKey payload : String) : String :=
  "ecies(" ++ publicKey ++ "," ++ payload ++ ")"

/-- A caller-supplied insertion request, the object shape consumed by
`handleInsertion`: `{ parentLabel, label, data, childrens }`, with
`childrens` recursively of the same shape. -/
inductive Insertion where
  | mk (parentLabel : Option String) (label : String) (data : Option String)
       (childrens : Option (List Insertion))

namespace IpfsService

/-- The call site `IdentityDag.insertNode(node, parentLabel,
insertion.label, data, dataHash)` in `handleInsertion`.  The engine method
declares only four parameters, so JavaScript silently discards the
trailing `dataHash` argument.  A nullish `parentLabel` strictly equals no
node label, so the search fails and the engine mutates nothing; on a
`null` engine result the tree is likewise untouched. -/
def insertNodeCall (node : Node) (parentLabel : Option String) (label : String)
    (data dataHash : Option String) : Node :=
  match parentLabel with
  | some p => (insertNode node p label data).getD node
  | none => node

/-- The call site `IdentityDag.updateNode(tree, search, dataIpfsHash,
dataHash)` in `IpfsService.updateNode`: the engine declares three
parameters, so the trailing `dataHash` argument is silently discarded;
the result is ignored by the caller, the (possibly unchanged) tree object
is what gets persisted. -/
def updateNodeCall (tree : Node) (search dataIpfsHash : String)
    (dataHash : Option String) : Node :=
  (updateNode tree search dataIpfsHash).getD tree

/-- The call site `IdentityDag.removeNode(tree, search)` in
`IpfsService.removeNode`: the result is ignored by the caller; the tree
object is mutated in place exactly when the engine returns a node, and is
untouched on the `false`/`null` returns. -/
def removeNodeCall (tree : Node) (search : String) : Node :=
  match removeNode tree search with
  | .rnode r => r
  | .rfalse => tree
  | .rnull => tree

mutual

/-- `IpfsService.handleInsertion(node, insertion, publicKey,
parentLabel)`: resolve the effective parent (a truthy `parentLabel`
argument overrides the insertion's own), and for a childless insertion
carrying truthy `data` draw a fresh salt, wrap `{ data, salt }`, encrypt
it for `publicKey`, persist the ciphertext and use its address as the new
node's stored value; `dataHash = sha3_256(insertion.data + salt)` is
computed and handed to the engine, which discards it.  An insertion with
children inserts a bare node and then recurses into the children with the
parent override forced to this insertion's `label`. -/
def handleInsertion (salts : Nat → String) (st : IpfsState) (node : Node) :
    (ins : Insertion) → (publicKey : String) → (parentLabel : Option String) →
    Node × IpfsState
  | .mk iParentLabel iLabel iData iChildrens, publicKey, parentLabel =>
    let effParentLabel := if sTruthy parentLabel then parentLabel else iParentLabel
    let hasChs : Bool := match iChildrens with
      | some l => !l.isEmpty
      | none => false
    if hasChs then
      let node' := insertNodeCall node effParentLabel iLabel none none
      match iChildrens with
      | some chs => handleInsertions salts st node' chs publicKey (some iLabel)
      | none => (node', st)
    else
      if sTruthy iData then
        let (salt, st₁) := drawSalt salts st
        let dataPayload := jsonDataSalt (iData.getD "") salt
        let data := encryptWithPublicKey publicKey dataPayload
        let dataHash := sha3_256 (iData.getD "" ++ salt)
        let (dataAddr, st₂) := saveObjectStr st₁ data
        (insertNodeCall node effParentLabel iLabel (some dataAddr) (some dataHash), st₂)
      else
        (insertNodeCall node effParentLabel iLabel none none, st)

/-- `IpfsService.handleInsertions(node, insertions, publicKey,
parentLabel)`: apply each insertion of the batch to the shared tree value,
in array order (the source fires the per-insertion promises in array order
against the same in-memory `node` and awaits them all; the embedding
applies them sequentially in that order). -/
def handleInsertions (salts : Nat → String) (st : IpfsState) (node : Node) :
    (insertions : List Insertion) → (publicKey : String) →
    (parentLabel : Option String) → Node × IpfsState
  | [], _, _ => (node, st)
  | ins :: rest, publicKey, parentLabel =>
    let (node', st') := handleInsertion salts st node ins publicKey parentLabel
    handleInsertions salts st' node' rest publicKey parentLabel

end

/-- `IpfsService.initTree(insertions, publicKey)`: build the root via the
engine, apply the seed insertions when the argument is truthy, persist the
tree and return its address. -/
def initTree (salts : Nat → String) (st : IpfsState)
    (insertions : Option (List Insertion)) (publicKey : String) :
    String × IpfsState :=
  let tree := SwapyIdentity.initTree
  let (tree', st') :=
    match insertions with
    | some l => handleInsertions salts st tree l publicKey none
    | none => (tree, st)
  saveObjectTree st' tree'

/-- `IpfsService.insertNodes(ipfsHash, insertions, publicKey)`: load the
tree at `ipfsHash`, apply the batch, persist, return the new address.  A
failing store read rejects (propagated as `.error`). -/
def insertNodes (salts : Nat → String) (st : IpfsState) (ipfsHash : String)
    (insertions : List Insertion) (publicKey : String) :
    Except String (String × IpfsState) :=
  match getObjectTree st ipfsHash with
  | none => .error "getObject failed"
  | some tree =>
    let (tree', st') := handleInsertions salts st tree insertions publicKey none
    .ok (saveObjectTree st' tree')

/-- `IpfsService.updateNode(ipfsHash, search, data, publicKey)`: draw a
salt, encrypt `{ data, salt }` for `publicKey`, persist the ciphertext,
load the tree, call the engine update (whose result is ignored and whose
trailing `dataHash` argument is discarded), persist the tree again and
return the new address — there is no failure path besides a failing store
read. -/
def updateNode (salts : Nat → String) (st : IpfsState)
    (ipfsHash search data publicKey : String) :
    Except String (String × IpfsState) :=
  let (salt, st₁) := drawSalt salts st
  let dataPayload := jsonDataSalt data salt
  let encryptedPayload := encryptWithPublicKey publicKey dataPayload
  let dataHash := sha3_256 (data ++ salt)
  let (dataIpfsHash, st₂) := saveObjectStr st₁ encryptedPayload
  match getObjectTree st₂ ipfsHash with
  | none => .error "getObject failed"
  | some tree =>
    .ok (saveObjectTree st₂ (updateNodeCall tree search dataIpfsHash (some dataHash)))

/-- `IpfsService.removeNode(ipfsHash, search)`: load the tree, call the
engine removal (whose result is ignored), persist the tree and return the
new address — there is no failure path besides a failing store read. -/
def removeNode (st : IpfsState) (ipfsHash search : String) :
    Except String (String × IpfsState) :=
  match getObjectTree st ipfsHash with
  | none => .error "getObject failed"
  | some tree =>
    .ok (saveObjectTree st (removeNodeCall tree search))

end IpfsService

/-!
## Proof infrastructure
-/

section NodeInduction

variable {P : Node → Prop} {Q : List Node → Prop}
variable (hnode : ∀ lab hs cs, (∀ l, cs = some l → Q l) → P (.mk lab hs cs))
variable (hnil : Q [])
variable (hcons : ∀ c cs, P c → Q cs → Q (c :: cs))

mutual

/-- Mutual induction principle for nodes and node lists. -/
def Node.indAux : ∀ n : Node, P n
  | .mk lab hs none =>
    hnode lab hs none (fun _ hl => nomatch hl)
  | .mk lab hs (some l) =>
    hnode lab hs (some l) (fun l' hl => by
      injection hl with hll
      exact hll ▸ Node.indListAux l)

/-- Mutual induction principle for node lists. -/
def Node.indListAux : ∀ l : List Node, Q l
  | [] => hnil
  | c :: cs => hcons c cs (Node.indAux c) (Node.indListAux cs)

end

end NodeInduction

mutual

/-- Number of nodes labelled `s` in the tree. -/
def labelCount : Node → String → Nat
  | .mk lab _ cs, s =>
    (if lab == s then 1 else 0) +
      (match cs with
       | some l => labelCountList l s
       | none => 0)

/-- Number of nodes labelled `s` in a forest. -/
def labelCountList : List Node → String → Nat
  | [], _ => 0
  | c :: cs, s => labelCount c s + labelCountList cs s

end

mutual

/-- Whether the traversal of `updateNode` can succeed: some node with
label `s` and empty-or-absent `childrens` is reachable by it. -/
def hasLeafLabeled : Node → String → Bool
  | .mk lab _ cs, s =>
    (lab == s && (match cs with | some l => l.isEmpty | none => true)) ||
      (match cs with
       | some l => if l.isEmpty then false else hasLeafLabeledList l s
       | none => false)

/-- Forest version of `hasLeafLabeled`. -/
def hasLeafLabeledList : List Node → String → Bool
  | [], _ => false
  | c :: cs, s => hasLeafLabeled c s || hasLeafLabeledList cs s

end

/-- Shape of a successful insertion, relating the tree before and after:
at the matched parent the new leaf `{ lbl, h }` is appended to the
children and the parent's hash is renewed; at every proper ancestor
exactly one child (the one on the path) is rewritten, every sibling
subtree (`pre`, `post`) is left exactly unchanged, the label and stored
fields are kept, and the ancestor's hash is renewed. -/
inductive InsertFrame (p lbl : String) (h : Option String) : Node → Node → Prop where
  | here (lab : String) (hs : Option String) (cs : Option (List Node))
      (hp : lab = p) :
      InsertFrame p lbl h (.mk lab hs cs)
        (renewNodeHash (.mk lab hs (some (cs.getD [] ++ [.mk lbl h none]))))
  | deeper (lab : String) (hs : Option String) (pre post : List Node) (c c' : Node)
      (hp : lab ≠ p) (hrec : InsertFrame p lbl h c c') :
      InsertFrame p lbl h (.mk lab hs (some (pre ++ c :: post)))
        (renewNodeHash (.mk lab hs (some (pre ++ c' :: post))))


/-- Combined nested induction over nodes and node lists. -/
theorem Node.mutualInd {P : Node → Prop} {Q : List Node → Prop}
    (hnode : ∀ lab hs cs, (∀ l, cs = some l → Q l) → P (.mk lab hs cs))
    (hnil : Q [])
    (hcons : ∀ c cs, P c → Q cs → Q (c :: cs)) :
    (∀ n : Node, P n) ∧ (∀ l : List Node, Q l) :=
  ⟨fun n => Node.indAux hnode hnil hcons n,
   fun l => Node.indListAux hnode hnil hcons l⟩



/-- Computation rule for `Node.setHash` on a constructor. -/
theorem Node.setHash_mk (lab : String) (hs h : Option String)
    (cs : Option (List Node)) : (Node.mk lab hs cs).setHash h = .mk lab h cs :=
  rfl

/-!
One-step computation rules for the mutually recursive tree functions.
Their defining equations are not definitional on open terms (nested
recursion), so each is established once via `eq_def` and then used as a
rewrite rule. -/

theorem labelCount_mk (lab : String) (hs : Option String)
    (cs : Option (List Node)) (s : String) :
    labelCount (.mk lab hs cs) s =
      (if lab == s then 1 else 0) +
        (match cs with | some l => labelCountList l s | none => 0) := by
  rw [labelCount.eq_def]

theorem labelCountList_nil (s : String) : labelCountList [] s = 0 := by
  rw [labelCountList.eq_def]

theorem labelCountList_cons (c : Node) (cs : List Node) (s : String) :
    labelCountList (c :: cs) s = labelCount c s + labelCountList cs s := by
  rw [labelCountList.eq_def]

theorem hasLeafLabeled_mk (lab : String) (hs : Option String)
    (cs : Option (List Node)) (s : String) :
    hasLeafLabeled (.mk lab hs cs) s =
      ((lab == s && (match cs with | some l => l.isEmpty | none => true)) ||
        (match cs with
         | some l => if l.isEmpty then false else hasLeafLabeledList l s
         | none => false)) := by
  rw [hasLeafLabeled.eq_def]

theorem hasLeafLabeledList_nil (s : String) : hasLeafLabeledList [] s = false := by
  rw [hasLeafLabeledList.eq_def]

theorem hasLeafLabeledList_cons (c : Node) (cs : List Node) (s : String) :
    hasLeafLabeledList (c :: cs) s =
      (hasLeafLabeled c s || hasLeafLabeledList cs s) := by
  rw [hasLeafLabeledList.eq_def]

theorem dfs_mk (lab : String) (hs : Option String) (cs : Option (List Node))
    (s : String) :
    dfs (.mk lab hs cs) s =
      if lab == s then some (.mk lab hs cs)
      else
        match cs with
        | some l => if l.isEmpty then none else dfsList l s
        | none => none := by
  rw [dfs.eq_def]

theorem dfsList_nil (s : String) : dfsList [] s = none := by
  rw [dfsList.eq_def]

theorem dfsList_cons (c : Node) (cs : List Node) (s : String) :
    dfsList (c :: cs) s =
      (match dfs c s with
       | some r => some r
       | none => dfsList cs s) := by
  rw [dfsList.eq_def]

theorem insertNode_mk (lab : String) (hs : Option String)
    (cs : Option (List Node)) (p lbl : String) (h : Option String) :
    insertNode (.mk lab hs cs) p lbl h =
      if lab == p then
        some (renewNodeHash
          (match cs with
           | some l =>
             if l.isEmpty then .mk lab hs (some [.mk lbl h none])
             else .mk lab hs (some (l ++ [.mk lbl h none]))
           | none => .mk lab hs (some [.mk lbl h none])))
      else
        match cs with
        | some l =>
          if l.isEmpty then none
          else
            match insertNodeList l p lbl h with
            | some l' => some (renewNodeHash (.mk lab hs (some l')))
            | none => none
        | none => none := by
  rw [insertNode.eq_def]

theorem insertNodeList_nil (p lbl : String) (h : Option String) :
    insertNodeList [] p lbl h = none := by
  rw [insertNodeList.eq_def]

theorem insertNodeList_cons (c : Node) (cs : List Node) (p lbl : String)
    (h : Option String) :
    insertNodeList (c :: cs) p lbl h =
      (match insertNode c p lbl h with
       | some c' => some (c' :: cs)
       | none =>
         match insertNodeList cs p lbl h with
         | some cs' => some (c :: cs')
         | none => none) := by
  rw [insertNodeList.eq_def]

theorem updateNode_mk (lab : String) (hs : Option String)
    (cs : Option (List Node)) (s d : String) :
    updateNode (.mk lab hs cs) s d =
      if lab == s && (match cs with | some l => l.isEmpty | none => true) then
        some (.mk lab (some d) cs)
      else
        match cs with
        | some l =>
          if l.isEmpty then none
          else
            match updateNodeList l s d with
            | some l' => some (renewNodeHash (.mk lab hs (some l')))
            | none => none
        | none => none := by
  rw [updateNode.eq_def]

theorem updateNodeList_nil (s d : String) : updateNodeList [] s d = none := by
  rw [updateNodeList.eq_def]

theorem updateNodeList_cons (c : Node) (cs : List Node) (s d : String) :
    updateNodeList (c :: cs) s d =
      (match updateNode c s d with
       | some c' => some (c' :: cs)
       | none =>
         match updateNodeList cs s d with
         | some cs' => some (c :: cs')
         | none => none) := by
  rw [updateNodeList.eq_def]

theorem removeNode_mk (lab : String) (hs : Option String)
    (cs : Option (List Node)) (s : String) :
    removeNode (.mk lab hs cs) s =
      if s == "root" then .rfalse
      else if lab == s then .rnode (.mk lab hs cs)
      else
        match cs with
        | some l =>
          if l.isEmpty then .rnull
          else
            match removeNodeList l s with
            | some l' => .rnode (renewNodeHash (.mk lab hs (some l')))
            | none => .rnull
        | none => .rnull := by
  rw [removeNode.eq_def]

theorem removeNodeList_nil (s : String) : removeNodeList [] s = none := by
  rw [removeNodeList.eq_def]

theorem removeNodeList_cons (c : Node) (cs : List Node) (s : String) :
    removeNodeList (c :: cs) s =
      (match removeNode c s with
       | .rnode r => if r.label == s then some cs else some (r :: cs)
       | .rfalse =>
         match removeNodeList cs s with
         | some cs' => some (c :: cs')
         | none => none
       | .rnull =>
         match removeNodeList cs s with
         | some cs' => some (c :: cs')
         | none => none) := by
  rw [removeNodeList.eq_def]

/-- `labelCount` ignores the `hash` field. -/
theorem labelCount_mk_hash (lab : String) (h₁ h₂ : Option String)
    (cs : Option (List Node)) (s : String) :
    labelCount (.mk lab h₁ cs) s = labelCount (.mk lab h₂ cs) s := by
  rw [labelCount_mk, labelCount_mk]

/-- `renewNodeHash` preserves the label. -/
theorem renewNodeHash_label (n : Node) : (renewNodeHash n).label = n.label := by
  cases n with
  | mk lab hs cs =>
    simp only [renewNodeHash]
    split
    · split
      · simp [Node.setHash, Node.label]
      · rfl
    · rfl

/-- `renewNodeHash` preserves the children. -/
theorem renewNodeHash_childrens (n : Node) :
    (renewNodeHash n).childrens = n.childrens := by
  cases n with
  | mk lab hs cs =>
    simp only [renewNodeHash]
    split
    · split
      · simp [Node.setHash, Node.childrens]
      · rfl
    · rfl

/-- `renewNodeHash` preserves every label count. -/
theorem labelCount_renewNodeHash (n : Node) (s : String) :
    labelCount (renewNodeHash n) s = labelCount n s := by
  cases n with
  | mk lab hs cs =>
    simp only [renewNodeHash]
    split
    · split
      · rw [Node.setHash_mk]
        exact labelCount_mk_hash _ _ _ _ _
      · rfl
    · rfl

/-- A node whose own label is `s` counts at least once. -/
theorem labelCount_pos_of_label (n : Node) (s : String) (h : n.label = s) :
    1 ≤ labelCount n s := by
  cases n with
  | mk lab hs cs =>
    simp [Node.label] at h
    simp [labelCount_mk, h]

/-- `dfs` misses `s` exactly when no node of the tree is labelled `s`. -/
theorem dfs_eq_none_iff_labelCount :
    (∀ n : Node, ∀ s, dfs n s = none ↔ labelCount n s = 0) ∧
    (∀ l : List Node, ∀ s, dfsList l s = none ↔ labelCountList l s = 0) := by
  apply Node.mutualInd
  · intro lab hs cs ih s
    by_cases hlab : lab == s
    · simp [dfs_mk, labelCount_mk, hlab]
    · cases cs with
      | none => simp [dfs_mk, labelCount_mk, hlab]
      | some l =>
        cases l with
        | nil => simp [dfs_mk, labelCount_mk, hlab, labelCountList_nil]
        | cons c cs' => simp [dfs_mk, labelCount_mk, hlab, ih _ rfl s]
  · intro s
    simp [dfsList_nil, labelCountList_nil]
  · intro c cs ihc ihcs s
    cases hdc : dfs c s with
    | some r =>
      have hc0 : ¬ labelCount c s = 0 := by
        intro h0
        rw [(ihc s).mpr h0] at hdc
        cases hdc
      simp [dfsList_cons, hdc, labelCountList_cons]
      omega
    | none =>
      simp [dfsList_cons, hdc, labelCountList_cons, (ihc s).mp hdc, ihcs s]

/-- `updateNode` succeeds exactly when some childless node labelled `s` is
reachable by its traversal. -/
theorem updateNode_isSome_iff :
    (∀ n : Node, ∀ s d, (updateNode n s d).isSome = hasLeafLabeled n s) ∧
    (∀ l : List Node, ∀ s d, (updateNodeList l s d).isSome = hasLeafLabeledList l s) := by
  apply Node.mutualInd
  · intro lab hs cs ih s d
    cases cs with
    | none =>
      by_cases hlab : lab == s <;> simp [updateNode_mk, hasLeafLabeled_mk, hlab]
    | some l =>
      cases l with
      | nil =>
        by_cases hlab : lab == s <;> simp [updateNode_mk, hasLeafLabeled_mk, hlab]
      | cons c cs' =>
        have ihl := ih _ rfl s d
        simp only [updateNode_mk, hasLeafLabeled_mk, List.isEmpty_cons,
          Bool.and_false, Bool.false_eq_true, if_false, Bool.false_or]
        rw [← ihl]
        cases hul : updateNodeList (c :: cs') s d <;> simp [hul]
  · intro s d
    simp [updateNodeList_nil, hasLeafLabeledList_nil]
  · intro c cs ihc ihcs s d
    have hc := ihc s d
    have hcs := ihcs s d
    cases huc : updateNode c s d with
    | some c' =>
      rw [huc] at hc
      simp at hc
      simp [updateNodeList_cons, huc, hasLeafLabeledList_cons, ← hc]
    | none =>
      rw [huc] at hc
      simp at hc
      cases hul : updateNodeList cs s d with
      | some cs' =>
        have hh : hasLeafLabeledList cs s = true := by rw [← hcs, hul]; rfl
        simp [updateNodeList_cons, huc, hul, hasLeafLabeledList_cons, hc, hh]
      | none =>
        have hh : hasLeafLabeledList cs s = false := by rw [← hcs, hul]; rfl
        simp [updateNodeList_cons, huc, hul, hasLeafLabeledList_cons, hc, hh]

/-- `insertNode` fails exactly when the parent label occurs nowhere in the
tree (and on that path the source performs no mutation). -/
theorem insertNode_eq_none_iff :
    (∀ n : Node, ∀ p lbl h, insertNode n p lbl h = none ↔ dfs n p = none) ∧
    (∀ l : List Node, ∀ p lbl h, insertNodeList l p lbl h = none ↔ dfsList l p = none) := by
  apply Node.mutualInd
  · intro lab hs cs ih p lbl h
    by_cases hlab : lab == p
    · simp [insertNode_mk, dfs_mk, hlab]
    · cases cs with
      | none => simp [insertNode_mk, dfs_mk, hlab]
      | some l =>
        cases l with
        | nil => simp [insertNode_mk, dfs_mk, hlab]
        | cons c cs' =>
          have ihl := ih _ rfl p lbl h
          simp only [insertNode_mk, dfs_mk, hlab, Bool.false_eq_true, if_false,
            List.isEmpty_cons]
          rw [← ihl]
          cases hil : insertNodeList (c :: cs') p lbl h <;> simp [hil]
  · intro p lbl h
    simp [insertNodeList_nil, dfsList_nil]
  · intro c cs ihc ihcs p lbl h
    have hc := ihc p lbl h
    have hcs := ihcs p lbl h
    cases hic : insertNode c p lbl h with
    | some c' =>
      rw [hic] at hc
      simp at hc
      cases hdc : dfs c p with
      | some r => simp [insertNodeList_cons, hic, dfsList_cons, hdc]
      | none => exact absurd hdc hc
    | none =>
      rw [hic] at hc
      simp at hc
      cases hil : insertNodeList cs p lbl h with
      | some cs' =>
        have hdl : ¬ dfsList cs p = none := by
          intro hdl
          rw [hcs.mpr hdl] at hil
          cases hil
        simp [insertNodeList_cons, hic, hil, dfsList_cons, hc, hdl]
      | none =>
        have hdl := hcs.mp hil
        simp [insertNodeList_cons, hic, hil, dfsList_cons, hc, hdl]

/-- `removeNode` answers `false` exactly for the reserved root label. -/
theorem removeNode_eq_rfalse_iff (n : Node) (s : String) :
    removeNode n s = .rfalse ↔ s = "root" := by
  cases n with
  | mk lab hs cs =>
    rw [removeNode_mk]
    by_cases hroot : s = "root"
    · simp [hroot]
    · simp only [show (s == "root") = false by simpa using hroot, Bool.false_eq_true,
        if_false]
      constructor
      · intro h
        exfalso
        by_cases hlab : lab == s
        · simp [hlab] at h
        · simp only [hlab, Bool.false_eq_true, if_false] at h
          cases cs with
          | none => simp at h
          | some l =>
            cases l with
            | nil => simp at h
            | cons c cs' =>
              simp only [List.isEmpty_cons, Bool.false_eq_true, if_false] at h
              cases hrl : removeNodeList (c :: cs') s with
              | some l' => rw [hrl] at h; simp at h
              | none => rw [hrl] at h; simp at h
      · intro h
        exact absurd h hroot

/-- A node whose own label is the (non-root) search label is returned
as-is by `removeNode`. -/
theorem removeNode_self (n : Node) (s : String) (hroot : s ≠ "root")
    (hlab : n.label = s) : removeNode n s = .rnode n := by
  cases n with
  | mk lab hs cs =>
    simp [Node.label] at hlab
    rw [removeNode_mk]
    simp [show (s == "root") = false by simpa using hroot, hlab]

/-- A successful removal below a node whose own label does not match
returns that node itself (hash renewed): the label is preserved. -/
theorem removeNode_rnode_label (n : Node) (s : String) (r : Node)
    (hroot : s ≠ "root") (hlab : n.label ≠ s)
    (h : removeNode n s = .rnode r) : r.label = n.label := by
  cases n with
  | mk lab hs cs =>
    simp [Node.label] at hlab
    rw [removeNode_mk] at h
    simp only [show (s == "root") = false by simpa using hroot,
      show (lab == s) = false by simpa using hlab, Bool.false_eq_true, if_false] at h
    cases cs with
    | none => simp at h
    | some l =>
      cases l with
      | nil => simp at h
      | cons c cs' =>
        simp only [List.isEmpty_cons, Bool.false_eq_true, if_false] at h
        cases hrl : removeNodeList (c :: cs') s with
        | some l' =>
          rw [hrl] at h
          simp at h
          rw [← h, renewNodeHash_label]
          simp [Node.label]
        | none => rw [hrl] at h; simp at h

/-- `removeNode` answers `null` exactly when the label occurs nowhere
(for a non-root search label). -/
theorem removeNode_eq_rnull_iff :
    (∀ n : Node, ∀ s, s ≠ "root" → (removeNode n s = .rnull ↔ dfs n s = none)) ∧
    (∀ l : List Node, ∀ s, s ≠ "root" → (removeNodeList l s = none ↔ dfsList l s = none)) := by
  apply Node.mutualInd
  · intro lab hs cs ih s hroot
    rw [removeNode_mk, dfs_mk]
    simp only [show (s == "root") = false by simpa using hroot, Bool.false_eq_true,
      if_false]
    by_cases hlab : lab == s
    · simp [hlab]
    · simp only [hlab, Bool.false_eq_true, if_false]
      cases cs with
      | none => simp
      | some l =>
        cases l with
        | nil => simp
        | cons c cs' =>
          simp only [List.isEmpty_cons, Bool.false_eq_true, if_false]
          rw [← ih _ rfl s hroot]
          cases hrl : removeNodeList (c :: cs') s <;> simp [hrl]
  · intro s _
    simp [removeNodeList_nil, dfsList_nil]
  · intro c cs ihc ihcs s hroot
    have hciff := ihc s hroot
    have hcsiff := ihcs s hroot
    cases hrc : removeNode c s with
    | rfalse => exact absurd ((removeNode_eq_rfalse_iff c s).mp hrc) hroot
    | rnode r =>
      have hdc : ¬ dfs c s = none := by
        intro hdc
        rw [hciff.mpr hdc] at hrc
        cases hrc
      cases hdcv : dfs c s with
      | none => exact absurd hdcv hdc
      | some w =>
        by_cases hr : r.label == s <;>
          simp [removeNodeList_cons, hrc, hr, dfsList_cons, hdcv]
    | rnull =>
      have hdc := hciff.mp hrc
      cases hrl : removeNodeList cs s with
      | some cs' =>
        have : ¬ dfsList cs s = none := by
          intro hdl
          rw [hcsiff.mpr hdl] at hrl
          cases hrl
        simp [removeNodeList_cons, hrc, hrl, dfsList_cons, hdc, this]
      | none =>
        simp [removeNodeList_cons, hrc, hrl, dfsList_cons, hdc, hcsiff.mp hrl]

/-- Removing a non-root label strictly decreases its occurrence count. -/
theorem removeNode_labelCount_lt :
    (∀ n : Node, ∀ s r, s ≠ "root" → n.label ≠ s → removeNode n s = .rnode r →
      labelCount r s < labelCount n s) ∧
    (∀ l : List Node, ∀ s l', s ≠ "root" → removeNodeList l s = some l' →
      labelCountList l' s < labelCountList l s) := by
  apply Node.mutualInd
  · intro lab hs cs ih s r hroot hlab
    intro h
    simp [Node.label] at hlab
    rw [removeNode_mk] at h
    simp only [show (s == "root") = false by simpa using hroot,
      show (lab == s) = false by simpa using hlab, Bool.false_eq_true, if_false] at h
    cases cs with
    | none => simp at h
    | some l =>
      cases l with
      | nil => simp at h
      | cons c cs' =>
        simp only [List.isEmpty_cons, Bool.false_eq_true, if_false] at h
        cases hrl : removeNodeList (c :: cs') s with
        | some l' =>
          rw [hrl] at h
          simp at h
          rw [← h, labelCount_renewNodeHash]
          simp only [labelCount_mk]
          have := ih _ rfl s l' hroot hrl
          omega
        | none => rw [hrl] at h; simp at h
  · intro s l' _ h
    rw [removeNodeList_nil] at h
    cases h
  · intro c cs ihc ihcs s l' hroot h
    rw [removeNodeList_cons] at h
    cases hrc : removeNode c s with
    | rfalse => exact absurd ((removeNode_eq_rfalse_iff c s).mp hrc) hroot
    | rnode r =>
      rw [hrc] at h
      by_cases hr : r.label = s
      · have hcl : c.label = s := by
          by_contra hcl
          have heq := removeNode_rnode_label c s r hroot hcl hrc
          rw [heq] at hr
          exact hcl hr
        have hpos := labelCount_pos_of_label c s hcl
        simp only [show (r.label == s) = true by simpa using hr, if_true] at h
        injection h with h
        rw [← h, labelCountList_cons]
        omega
      · have hcl : c.label ≠ s := by
          intro hcl
          have := removeNode_self c s hroot hcl
          rw [this] at hrc
          injection hrc with hrc
          exact hr (hrc ▸ hcl)
        have hlt := ihc s r hroot hcl hrc
        simp only [show (r.label == s) = false by simpa using hr, Bool.false_eq_true,
          if_false] at h
        injection h with h
        rw [← h, labelCountList_cons, labelCountList_cons]
        omega
    | rnull =>
      rw [hrc] at h
      cases hrl : removeNodeList cs s with
      | some cs' =>
        rw [hrl] at h
        injection h with h
        have := ihcs s cs' hroot hrl
        rw [← h, labelCountList_cons, labelCountList_cons]
        omega
      | none => rw [hrl] at h; cases h


/-- Every successful `insertNode` call satisfies the `InsertFrame` shape
(and, at the list level, rewrites exactly one child, keeping all sibling
subtrees unchanged). -/
theorem insertNode_frame (p lbl : String) (h : Option String) :
    (∀ n : Node, ∀ t', insertNode n p lbl h = some t' → InsertFrame p lbl h n t') ∧
    (∀ l : List Node, ∀ l', insertNodeList l p lbl h = some l' →
      ∃ pre c post c', l = pre ++ c :: post ∧ l' = pre ++ c' :: post ∧
        InsertFrame p lbl h c c') := by
  apply Node.mutualInd
  · intro lab hs cs ih t' heq
    rw [insertNode_mk] at heq
    by_cases hlab : lab == p
    · simp only [hlab, if_true] at heq
      injection heq with heq
      rw [← heq]
      cases cs with
      | none => exact .here lab hs none (by simpa using hlab)
      | some l =>
        cases l with
        | nil => exact .here lab hs (some []) (by simpa using hlab)
        | cons a as => exact .here lab hs (some (a :: as)) (by simpa using hlab)
    · simp only [hlab, Bool.false_eq_true, if_false] at heq
      cases cs with
      | none => cases heq
      | some l =>
        cases l with
        | nil => simp at heq
        | cons c cs' =>
          simp only [List.isEmpty_cons, Bool.false_eq_true, if_false] at heq
          cases hil : insertNodeList (c :: cs') p lbl h with
          | some l₂ =>
            rw [hil] at heq
            injection heq with heq
            obtain ⟨pre, c₀, post, c₀', hl, hl₂, hframe⟩ := ih _ rfl l₂ hil
            rw [← heq, hl, hl₂]
            exact .deeper lab hs pre post c₀ c₀' (by simpa using hlab) hframe
          | none => rw [hil] at heq; cases heq
  · intro l' heq
    rw [insertNodeList_nil] at heq
    cases heq
  · intro c cs ihc ihcs l' heq
    rw [insertNodeList_cons] at heq
    cases hic : insertNode c p lbl h with
    | some c' =>
      rw [hic] at heq
      injection heq with heq
      exact ⟨[], c, cs, c', rfl, heq.symm, ihc c' hic⟩
    | none =>
      rw [hic] at heq
      cases hil : insertNodeList cs p lbl h with
      | some cs' =>
        rw [hil] at heq
        injection heq with heq
        obtain ⟨pre, c₀, post, c₀', hl, hl', hframe⟩ := ihcs cs' hil
        exact ⟨c :: pre, c₀, post, c₀', by rw [hl]; rfl, by rw [← heq, hl']; rfl, hframe⟩
      | none => rw [hil] at heq; cases heq

/-- The hash-accumulation of `renewNodeHash` stays `null` when no child
carries a truthy hash. -/
theorem concatChildHashes_falsy (l : List Node)
    (h : ∀ c ∈ l, sTruthy c.hash = false) : concatChildHashes l = none := by
  have general : ∀ l' : List Node, (∀ c ∈ l', sTruthy c.hash = false) →
      List.foldl
        (fun data c =>
          if sTruthy c.hash then
            if sTruthy data then some (data.getD "" ++ c.hash.getD "") else c.hash
          else data)
        none l' = none := by
    intro l' hl'
    induction l' with
    | nil => rfl
    | cons c cs ih =>
      rw [List.foldl_cons]
      rw [hl' c (by simp)]
      simp only [Bool.false_eq_true, if_false]
      exact ih (fun c hc => hl' c (by simp [hc]))
  exact general l h

/-- A node none of whose children carries a truthy hash is left entirely
unchanged by `renewNodeHash`: in particular its own `hash` keeps its
previous value (it is not reset to `null`). -/
theorem renewNodeHash_no_hashed_child (n : Node)
    (h : ∀ c ∈ n.childrens.getD [], sTruthy c.hash = false) :
    renewNodeHash n = n := by
  by_cases hc : n.hasChildrens
  · simp only [renewNodeHash, hc, if_true]
    rw [concatChildHashes_falsy _ h]
    rfl
  · simp [renewNodeHash, hc]

/-- Storing a new payload does not disturb earlier store lookups. -/
theorem getObjectTree_saveObjectStr (st : IpfsState) (x a : String) (t : Node)
    (h : getObjectTree st a = some t) :
    getObjectTree (saveObjectStr st x).2 a = some t := by
  unfold getObjectTree at h ⊢
  unfold saveObjectStr
  simp only [List.find?_append]
  cases hf : st.objs.find? (fun p => p.1 == a) with
  | none => rw [hf] at h; cases h
  | some pr =>
    rw [hf] at h
    simp [Option.or, hf]
    exact h

/-- Applying the `IpfsService.removeNode` engine call never changes the
label of the root of the tree it is given. -/
theorem removeNodeCall_root_label (t : Node) (s : String) (h : t.label = "root") :
    (IpfsService.removeNodeCall t s).label = "root" := by
  unfold IpfsService.removeNodeCall
  cases hres : removeNode t s with
  | rfalse => simpa using h
  | rnull => simpa using h
  | rnode r =>
    by_cases hs : s = "root"
    · rw [hs] at hres
      have hfalse := (removeNode_eq_rfalse_iff t "root").mpr rfl
      rw [hfalse] at hres
      simp at hres
    · have hlab : t.label ≠ s := by
        rw [h]
        exact fun hh => hs hh.symm
      rw [removeNode_rnode_label t s r hs hlab hres, h]

/-- A non-empty string is truthy. -/
theorem sTruthy_some (ov : String) (h : ov ≠ "") : sTruthy (some ov) = true := by
  simp only [sTruthy, Bool.not_eq_true']
  exact (Bool.not_eq_true _).mp fun hie => h ((String.isEmpty_iff _).mp hie)

/-- Root-label preservation through any `removeNodeCall` fold. -/
theorem foldl_removeNodeCall_label (ls : List String) :
    ∀ t : Node, t.label = "root" →
      (ls.foldl IpfsService.removeNodeCall t).label = "root" := by
  induction ls with
  | nil => exact fun t h => h
  | cons s ss ih =>
    intro t h
    rw [List.foldl_cons]
    exact ih _ (removeNodeCall_root_label t s h)

/-!
## Claims
-/

/-- C7: `TreeEngine.insertNode(root, parentLabel, label, addr)` returns
`null` exactly when `parentLabel` matches no node anywhere in the tree
(`dfs` misses it); on that path the source performs no mutation at all,
so the tree is left unchanged (no node added, no hash modified), which the
functional embedding renders by the failure carrying no tree. -/
theorem claim_C7_insert_missing_parent (t : Node) (p lbl : String)
    (h : Option String) :
    insertNode t p lbl h = none ↔ dfs t p = none :=
  insertNode_eq_none_iff.1 t p lbl h

/-- C8: `removeNode(root, "root")` is rejected with the falsy sentinel
`false` before any traversal, the persisted tree is the unchanged input,
and across any sequence of remove operations the tree keeps its single
root node labelled `"root"`. -/
theorem claim_C8_root_protection (t : Node) (ls : List String)
    (h : t.label = "root") :
    removeNode t "root" = .rfalse ∧
    IpfsService.removeNodeCall t "root" = t ∧
    (ls.foldl IpfsService.removeNodeCall t).label = "root" := by
  refine ⟨(removeNode_eq_rfalse_iff t "root").mpr rfl, ?_, ?_⟩
  · unfold IpfsService.removeNodeCall
    rw [(removeNode_eq_rfalse_iff t "root").mpr rfl]
  · exact foldl_removeNodeCall_label ls t h

/-- Witness for C8 at a concrete tree and remove sequence. -/
theorem claim_C8_root_protection_witness :
    removeNode (.mk "root" none (some [.mk "a" (some "x") none])) "root" = .rfalse ∧
    IpfsService.removeNodeCall (.mk "root" none (some [.mk "a" (some "x") none]))
      "root" = .mk "root" none (some [.mk "a" (some "x") none]) ∧
    ((["a", "root", "b"].foldl IpfsService.removeNodeCall
      (.mk "root" none (some [.mk "a" (some "x") none]))).label = "root") :=
  claim_C8_root_protection (.mk "root" none (some [.mk "a" (some "x") none]))
    ["a", "root", "b"] rfl

/-- C4 counterexample: in `root -> a(internal) -> a(leaf)` the first
pre-order match of `"a"` is the internal node, yet `updateNode` does not
return `null`: the traversal continues into the internal node and updates
the deeper leaf `"a"`. -/
theorem claim_C4_counterexample :
    updateNode (.mk "root" none
        (some [.mk "a" none (some [.mk "a" (some "x") none])])) "a" "y" =
      some (.mk "root" (some (sha3_256 (sha3_256 "y")))
        (some [.mk "a" (some (sha3_256 "y")) (some [.mk "a" (some "y") none])])) := by
  decide

/-- C4 (amended): `updateNode` succeeds exactly when its traversal can
reach a childless node labelled `L` — internal nodes labelled `L` do not
stop the search (it continues into and past them), and `null` is returned
exactly when no such leaf exists. -/
theorem claim_C4_update_leaf_only (n : Node) (s d : String) :
    updateNode n s d = none ↔ hasLeafLabeled n s = false := by
  have h := updateNode_isSome_iff.1 n s d
  cases hu : updateNode n s d <;> rw [hu] at h <;> simp at h <;> simp [h]

/-- C10: a node whose `childrens` field is present but empty passes the
leaf test of `updateNode`, so it can be given a stored content address;
in particular, removing the last child of an internal node (leaving
`childrens: []`) makes that node updatable. -/
theorem claim_C10_empty_children_updatable :
    (∀ (lab : String) (hs : Option String) (d : String),
      updateNode (.mk lab hs (some [])) lab d = some (.mk lab (some d) (some []))) ∧
    removeNode (.mk "root" (some (sha3_256 (sha3_256 "x")))
        (some [.mk "p" (some (sha3_256 "x")) (some [.mk "a" (some "x") none])])) "a" =
      .rnode (.mk "root" (some (sha3_256 (sha3_256 "x")))
        (some [.mk "p" (some (sha3_256 "x")) (some [])])) ∧
    updateNode (.mk "root" (some (sha3_256 (sha3_256 "x")))
        (some [.mk "p" (some (sha3_256 "x")) (some [])])) "p" "addr2" =
      some (.mk "root" (some (sha3_256 "addr2"))
        (some [.mk "p" (some "addr2") (some [])])) := by
  refine ⟨?_, by decide, by decide⟩
  intro lab hs d
  rw [updateNode_mk]
  simp

/-- C3 counterexample: removing `"a"` from `root -> a` succeeds, but the
returned reference is the mutated root node, not the removed node
`{ a, "x" }`. -/
theorem claim_C3_counterexample :
    removeNode (.mk "root" none (some [.mk "a" (some "x") none])) "a" =
      .rnode (.mk "root" none (some [])) ∧
    Node.mk "root" none (some []) ≠ .mk "a" (some "x") none := by
  decide

/-- C3 (amended): for a tree rooted at `"root"` and a non-root label,
`removeNode` returns `null` exactly when the label occurs nowhere, never
returns the `false` sentinel, and on success returns the renewed node the
call was made on (labelled `"root"`) — not the removed node reference. -/
theorem claim_C3_remove_returns_root (t : Node) (s : String)
    (hroot : s ≠ "root") (hlab : t.label = "root") :
    (removeNode t s = .rnull ↔ dfs t s = none) ∧
    removeNode t s ≠ .rfalse ∧
    (∀ r, removeNode t s = .rnode r → r.label = "root") := by
  refine ⟨removeNode_eq_rnull_iff.1 t s hroot, ?_, ?_⟩
  · intro h
    exact hroot ((removeNode_eq_rfalse_iff t s).mp h)
  · intro r h
    have hl : t.label ≠ s := by
      rw [hlab]
      exact fun hh => hroot hh.symm
    rw [removeNode_rnode_label t s r hroot hl h, hlab]

/-- Witness for C3 at a concrete tree. -/
theorem claim_C3_remove_returns_root_witness :
    (removeNode (.mk "root" none (some [.mk "b" (some "y") none])) "a" = .rnull ↔
      dfs (.mk "root" none (some [.mk "b" (some "y") none])) "a" = none) ∧
    removeNode (.mk "root" none (some [.mk "b" (some "y") none])) "a" ≠ .rfalse ∧
    (∀ r, removeNode (.mk "root" none (some [.mk "b" (some "y") none])) "a" =
      .rnode r → r.label = "root") :=
  claim_C3_remove_returns_root (.mk "root" none (some [.mk "b" (some "y") none]))
    "a" (by decide) rfl

/-- C2 counterexample: in the consistent tree
`root -> p(sha3(sha3 "x")) -> a("x")`, removing `"a"` succeeds (and `dfs`
then misses `"a"`), but the former parent `p` keeps its pre-removal hash
`sha3_256 "x"` — the hash neither differs from its pre-removal value nor
is left `null`: `renewNodeHash` skips a node whose remaining children
carry no truthy hash. -/
theorem claim_C2_counterexample :
    removeNode (.mk "root" (some (sha3_256 (sha3_256 "x")))
        (some [.mk "p" (some (sha3_256 "x")) (some [.mk "a" (some "x") none])])) "a" =
      .rnode (.mk "root" (some (sha3_256 (sha3_256 "x")))
        (some [.mk "p" (some (sha3_256 "x")) (some [])])) ∧
    dfs (.mk "root" (some (sha3_256 (sha3_256 "x")))
        (some [.mk "p" (some (sha3_256 "x")) (some [])])) "a" = none ∧
    (Node.mk "p" (some (sha3_256 "x")) (some [])).hash =
      (Node.mk "p" (some (sha3_256 "x")) (some [.mk "a" (some "x") none])).hash ∧
    (Node.mk "p" (some (sha3_256 "x")) (some [])).hash ≠ none := by
  refine ⟨by decide, by decide, rfl, by decide⟩

/-- C2 (amended): after a successful `removeNode(root, L)` where `L`
labels exactly one node and is not the root label, `dfs(root, L)` returns
`null`; and the hash-recomputation policy leaves a node entirely
unchanged (its hash keeps its previous value — it is not reset to `null`)
when none of its remaining children carries a truthy hash. -/
theorem claim_C2_remove_then_search (t : Node) (s : String) (r : Node)
    (hroot : s ≠ "root") (hlab : t.label ≠ s) (hcount : labelCount t s = 1)
    (hrem : removeNode t s = .rnode r) :
    dfs r s = none ∧
    (∀ n : Node, (∀ c ∈ n.childrens.getD [], sTruthy c.hash = false) →
      renewNodeHash n = n) := by
  constructor
  · have hlt := removeNode_labelCount_lt.1 t s r hroot hlab hrem
    exact (dfs_eq_none_iff_labelCount.1 r s).mpr (by omega)
  · exact fun n h => renewNodeHash_no_hashed_child n h

/-- Witness for C2 at the concrete remove-then-search tree. -/
theorem claim_C2_remove_then_search_witness :
    dfs (.mk "root" (some (sha3_256 (sha3_256 "x")))
        (some [.mk "p" (some (sha3_256 "x")) (some [])])) "a" = none ∧
    (∀ n : Node, (∀ c ∈ n.childrens.getD [], sTruthy c.hash = false) →
      renewNodeHash n = n) :=
  claim_C2_remove_then_search
    (.mk "root" (some (sha3_256 (sha3_256 "x")))
      (some [.mk "p" (some (sha3_256 "x")) (some [.mk "a" (some "x") none])]))
    "a"
    (.mk "root" (some (sha3_256 (sha3_256 "x")))
      (some [.mk "p" (some (sha3_256 "x")) (some [])]))
    (by decide) (by decide) (by decide) (by decide)

/-- C5 counterexample: in the reachable tree
`root(sha3(sha3 "x")) -> p(sha3 "x", childrens [])` (obtained by inserting
and then removing a leaf `"x"` under `p`), inserting the leaf
`l("x")` under `p` changes the hash of **no** ancestor: the renewed
parent hash `sha3_256 "x"` and root hash `sha3_256 (sha3_256 "x")`
coincide with the stale pre-insert values. -/
theorem claim_C5_counterexample :
    insertNode (.mk "root" (some (sha3_256 (sha3_256 "x")))
        (some [.mk "p" (some (sha3_256 "x")) (some [])])) "p" "l" (some "x") =
      some (.mk "root" (some (sha3_256 (sha3_256 "x")))
        (some [.mk "p" (some (sha3_256 "x")) (some [.mk "l" (some "x") none])])) ∧
    (Node.mk "p" (some (sha3_256 "x")) (some [.mk "l" (some "x") none])).hash =
      (Node.mk "p" (some (sha3_256 "x")) (some [])).hash := by
  refine ⟨by decide, rfl⟩

/-- C5 (amended): every successful insertion satisfies the `InsertFrame`
shape: the new leaf is appended at the matched parent, whose hash is
recomputed via `renewNodeHash`, and every proper ancestor on the path to
the call root has exactly the on-path child rewritten and its hash
recomputed, while every sibling subtree off the path is left exactly
unchanged.  (The recomputed hash may coincide with the previous value, as
the counterexample shows, so "recomputed", not "changed".) -/
theorem claim_C5_hash_propagation (p lbl : String) (h : Option String)
    (t t' : Node) (heq : insertNode t p lbl h = some t') :
    InsertFrame p lbl h t t' :=
  (insertNode_frame p lbl h).1 t t' heq

/-- Witness for C5 at a concrete insertion. -/
theorem claim_C5_hash_propagation_witness :
    InsertFrame "p" "l" (some "y")
      (.mk "root" (some "h0")
        (some [.mk "q" (some "h1") none,
               .mk "p" (some "h2") (some [.mk "c" (some "x") none])]))
      (.mk "root" (some (sha3_256 ("h1" ++ sha3_256 ("x" ++ "y"))))
        (some [.mk "q" (some "h1") none,
               .mk "p" (some (sha3_256 ("x" ++ "y")))
                 (some [.mk "c" (some "x") none, .mk "l" (some "y") none])])) :=
  claim_C5_hash_propagation "p" "l" (some "y") _ _ (by decide)

/-- C1 counterexample: with a root-only tree stored at `"ipfs/0"`, both
`IpfsService.removeNode` on a missing label (and on `"root"`) and
`IpfsService.updateNode` on a missing label return `.ok` with a fresh
address and persist the (unchanged) tree again — no `NotFoundError` or
`InvalidOperationError` is raised, contradicting the claim that the
operations fail and persist nothing. -/
theorem claim_C1_counterexample :
    IpfsService.removeNode ⟨[("ipfs/0", .tree (.mk "root" none none))], 0⟩
        "ipfs/0" "x" =
      .ok ("ipfs/1", ⟨[("ipfs/0", .tree (.mk "root" none none)),
                       ("ipfs/1", .tree (.mk "root" none none))], 0⟩) ∧
    IpfsService.removeNode ⟨[("ipfs/0", .tree (.mk "root" none none))], 0⟩
        "ipfs/0" "root" =
      .ok ("ipfs/1", ⟨[("ipfs/0", .tree (.mk "root" none none)),
                       ("ipfs/1", .tree (.mk "root" none none))], 0⟩) ∧
    IpfsService.updateNode (fun k => "S" ++ toString k)
        ⟨[("ipfs/0", .tree (.mk "root" none none))], 0⟩ "ipfs/0" "x" "d" "pk" =
      .ok ("ipfs/2",
        ⟨[("ipfs/0", .tree (.mk "root" none none)),
          ("ipfs/1", .str (encryptWithPublicKey "pk" (jsonDataSalt "d" "S0"))),
          ("ipfs/2", .tree (.mk "root" none none))], 1⟩) := by
  refine ⟨rfl, rfl, rfl⟩

/-- C1 (amended): `IpfsService.updateNode` and `IpfsService.removeNode`
ignore the engine-level result entirely.  When the engine mutation finds
no matching leaf (update) or targets `"root"` / finds no match (remove),
no error is raised: the loaded tree — unchanged — is persisted again and
the fresh address of that copy is returned. -/
theorem claim_C1_silent_persist (salts : Nat → String) (st : IpfsState)
    (a s d pk : String) (t : Node) (hget : getObjectTree st a = some t) :
    (hasLeafLabeled t s = false →
      IpfsService.updateNode salts st a s d pk =
        .ok (saveObjectTree
          (saveObjectStr (drawSalt salts st).2
            (encryptWithPublicKey pk (jsonDataSalt d (drawSalt salts st).1))).2 t)) ∧
    ((s = "root" ∨ dfs t s = none) →
      IpfsService.removeNode st a s = .ok (saveObjectTree st t)) := by
  constructor
  · intro hnoleaf
    have hnone : ∀ d', updateNode t s d' = none := by
      intro d'
      have hiso := updateNode_isSome_iff.1 t s d'
      rw [hnoleaf] at hiso
      cases hu : updateNode t s d' with
      | some w => rw [hu] at hiso; simp at hiso
      | none => rfl
    have hget₁ : getObjectTree (drawSalt salts st).2 a = some t := hget
    have hget₂ :
        getObjectTree
          (saveObjectStr (drawSalt salts st).2
            (encryptWithPublicKey pk (jsonDataSalt d (drawSalt salts st).1))).2 a =
          some t :=
      getObjectTree_saveObjectStr _ _ _ _ hget₁
    unfold IpfsService.updateNode
    simp only [hget₂]
    unfold IpfsService.updateNodeCall
    rw [hnone]
    rfl
  · intro hcase
    have hcall : IpfsService.removeNodeCall t s = t := by
      unfold IpfsService.removeNodeCall
      rcases hcase with hs | hdfs
      · rw [hs, (removeNode_eq_rfalse_iff t "root").mpr rfl]
      · by_cases hs : s = "root"
        · rw [hs, (removeNode_eq_rfalse_iff t "root").mpr rfl]
        · rw [(removeNode_eq_rnull_iff.1 t s hs).mpr hdfs]
    unfold IpfsService.removeNode
    simp only [hget]
    rw [hcall]

/-- Witness for C1 at a concrete store holding a root-only tree. -/
theorem claim_C1_silent_persist_witness :
    (hasLeafLabeled (.mk "root" none (some [.mk "q" none (some [])])) "x" = false →
      IpfsService.updateNode (fun k => "S" ++ toString k)
          ⟨[("ipfs/0", .tree (.mk "root" none (some [.mk "q" none (some [])])))], 0⟩
          "ipfs/0" "x" "d" "pk" =
        .ok (saveObjectTree
          (saveObjectStr
            (drawSalt (fun k => "S" ++ toString k)
              ⟨[("ipfs/0", .tree (.mk "root" none (some [.mk "q" none (some [])])))], 0⟩).2
            (encryptWithPublicKey "pk" (jsonDataSalt "d"
              (drawSalt (fun k => "S" ++ toString k)
                ⟨[("ipfs/0", .tree (.mk "root" none (some [.mk "q" none (some [])])))], 0⟩).1))).2
          (.mk "root" none (some [.mk "q" none (some [])])))) ∧
    (("x" = "root" ∨
        dfs (.mk "root" none (some [.mk "q" none (some [])])) "x" = none) →
      IpfsService.removeNode
          ⟨[("ipfs/0", .tree (.mk "root" none (some [.mk "q" none (some [])])))], 0⟩
          "ipfs/0" "x" =
        .ok (saveObjectTree
          ⟨[("ipfs/0", .tree (.mk "root" none (some [.mk "q" none (some [])])))], 0⟩
          (.mk "root" none (some [.mk "q" none (some [])])))) :=
  claim_C1_silent_persist (fun k => "S" ++ toString k)
    ⟨[("ipfs/0", .tree (.mk "root" none (some [.mk "q" none (some [])])))], 0⟩
    "ipfs/0" "x" "d" "pk" (.mk "root" none (some [.mk "q" none (some [])])) rfl

/-- C6 counterexample: with an enclosing insertion whose `label` is the
empty string (falsy), the nested child's caller-supplied `parentLabel`
(`"root"`) is **used**, not overridden: `b` ends up as a direct child of
the root, and the node labelled `""` stays childless. -/
theorem claim_C6_counterexample :
    IpfsService.initTree (fun k => "S" ++ toString k) ⟨[], 0⟩
        (some [⟨some "root", "", none,
               some [⟨some "root", "b", some "x", none⟩]⟩]) "pk" =
      ("ipfs/1",
        ⟨[("ipfs/0", .str (encryptWithPublicKey "pk" (jsonDataSalt "x" "S0"))),
          ("ipfs/1", .tree (.mk "root" (some (sha3_256 "ipfs/0"))
            (some [.mk "" none none, .mk "b" (some "ipfs/0") none])))], 1⟩) ∧
    dfs (.mk "root" (some (sha3_256 "ipfs/0"))
        (some [.mk "" none none, .mk "b" (some "ipfs/0") none])) "" =
      some (.mk "" none none) := by
  refine ⟨by decide, by decide⟩

/-- C6 (amended): when the enclosing insertion's label is truthy
(non-empty), every nested child is processed with its effective parent
forced to that label — the result of `handleInsertion` on a child is
independent of whatever `parentLabel` value the caller supplied on the
child; and the seed scenario `{a, children:[{b, data:"x"}]}` under
`"root"` produces `root -> a -> b` with `b` a leaf holding the address of
the stored (encrypted) data. -/
theorem claim_C6_nested_parent_override :
    (∀ (salts : Nat → String) (st : IpfsState) (node : Node) (pk ov : String)
       (cpl₁ cpl₂ : Option String) (lab : String) (dat : Option String)
       (chs : Option (List Insertion)), ov ≠ "" →
      IpfsService.handleInsertion salts st node (.mk cpl₁ lab dat chs) pk (some ov) =
      IpfsService.handleInsertion salts st node (.mk cpl₂ lab dat chs) pk (some ov)) ∧
    IpfsService.initTree (fun k => "S" ++ toString k) ⟨[], 0⟩
        (some [⟨some "root", "a", none,
               some [⟨some "IGNORED", "b", some "x", none⟩]⟩]) "pk" =
      ("ipfs/1",
        ⟨[("ipfs/0", .str (encryptWithPublicKey "pk" (jsonDataSalt "x" "S0"))),
          ("ipfs/1", .tree (.mk "root" (some (sha3_256 (sha3_256 "ipfs/0")))
            (some [.mk "a" (some (sha3_256 "ipfs/0"))
              (some [.mk "b" (some "ipfs/0") none])])))], 1⟩) := by
  constructor
  · intro salts st node pk ov cpl₁ cpl₂ lab dat chs hov
    rw [IpfsService.handleInsertion.eq_def, IpfsService.handleInsertion.eq_def]
    simp only [sTruthy_some ov hov, if_true]
  · decide

/-- Witness for C6's override clause at concrete child insertions with
two different caller-supplied parent labels. -/
theorem claim_C6_nested_parent_override_witness :
    (IpfsService.handleInsertion (fun k => "S" ++ toString k) ⟨[], 0⟩
        (.mk "root" none (some [.mk "a" none none]))
        (.mk (some "WRONG") "b" (some "x") none) "pk" (some "a") =
      IpfsService.handleInsertion (fun k => "S" ++ toString k) ⟨[], 0⟩
        (.mk "root" none (some [.mk "a" none none]))
        (.mk (some "root") "b" (some "x") none) "pk" (some "a")) ∧
    IpfsService.initTree (fun k => "S" ++ toString k) ⟨[], 0⟩
        (some [⟨some "root", "a", none,
               some [⟨some "IGNORED", "b", some "x", none⟩]⟩]) "pk" =
      ("ipfs/1",
        ⟨[("ipfs/0", .str (encryptWithPublicKey "pk" (jsonDataSalt "x" "S0"))),
          ("ipfs/1", .tree (.mk "root" (some (sha3_256 (sha3_256 "ipfs/0")))
            (some [.mk "a" (some (sha3_256 "ipfs/0"))
              (some [.mk "b" (some "ipfs/0") none])])))], 1⟩) :=
  ⟨claim_C6_nested_parent_override.1 (fun k => "S" ++ toString k) ⟨[], 0⟩
      (.mk "root" none (some [.mk "a" none none])) "pk" "a"
      (some "WRONG") (some "root") "b" (some "x") none (by decide),
   claim_C6_nested_parent_override.2⟩

/-- C9: the `dataHash = sha3_256(plaintext + salt)` computed by
`handleInsertion` / `IpfsService.updateNode` is silently discarded — the
engine's `insertNode`/`updateNode` declare no `dataHash` parameter, so the
call-site wrappers are constant in that argument and the persisted node
carries only the ciphertext's content address (the `Node` shape of
`IdentityDag.js` has no `dataHash` field at all), as the concrete run
shows: the salt is drawn, `{data, salt}` is wrapped, encrypted for the
recipient key and persisted, but no `dataHash` reaches the tree. -/
theorem claim_C9_datahash_dropped :
    (∀ (node : Node) (pl : Option String) (lab : String) (d dh₁ dh₂ : Option String),
      IpfsService.insertNodeCall node pl lab d dh₁ =
      IpfsService.insertNodeCall node pl lab d dh₂) ∧
    (∀ (tree : Node) (s di : String) (dh₁ dh₂ : Option String),
      IpfsService.updateNodeCall tree s di dh₁ =
      IpfsService.updateNodeCall tree s di dh₂) ∧
    IpfsService.handleInsertion (fun k => "S" ++ toString k) ⟨[], 0⟩
        (.mk "root" none none) (.mk (some "root") "a" (some "x") none) "pk" none =
      (.mk "root" (some (sha3_256 "ipfs/0")) (some [.mk "a" (some "ipfs/0") none]),
       ⟨[("ipfs/0", .str (encryptWithPublicKey "pk" (jsonDataSalt "x" "S0")))], 1⟩) := by
  refine ⟨fun node pl lab d dh₁ dh₂ => rfl, fun tree s di dh₁ dh₂ => rfl, by decide⟩

end SwapyIdentity
